import Mathlib

/-
Verification development for the val/ptr polymorphic value-semantics library
(single header val.hpp). The C++ source is shallowly embedded: machine
pointers and size_t offsets become natural numbers with explicit arithmetic
modulo 2 ^ 64, throwing code becomes Except, the reference-counting protocol
of block / ptr / val becomes an explicit state machine on association lists,
and process abort is modelled as the absence of a successor state.
-/

namespace ValHpp

/-! ## Basic block model (val.hpp lines 56-75)

The C++ struct block holds an atomic ownership counter and an atomic data
pointer. Addresses are modelled as Nat with 0 standing for nullptr. -/

structure block where
  count : Int
  data : Nat
deriving DecidableEq, Repr

inductive CppErr where
  | invalidArgument
  | logicError
  | badCast
deriving DecidableEq, Repr

/-- Model of the constructor block::block(void *), val.hpp lines 60-64: the
counter starts at 0 and a null data address throws std::invalid_argument. -/
def blockNew (d : Nat) : Except CppErr block :=
  if d = 0 then .error .invalidArgument else .ok { count := 0, data := d }

/-! ## Operation dispatcher (val.hpp lines 48-54 and 105-132)

One dispatch function per concrete type, keyed by an operation tag. The
concrete type is abstracted by the flags that determine the dispatch behaviour:
whether the type is copy constructible, its size, and a numeric stand-in
for the typeid name. The C++ function returns intptr_t; the model returns
Nat inside Except, since CLONE throws std::logic_error for a type that is
not copy constructible (clone_impl<T, false>::clone, lines 105-112). -/

inductive operation where
  | CLONE
  | DELETE
  | DESTRUCT
  | SIZE
  | TYPE
deriving DecidableEq, Repr

structure TypeOps where
  copy_constructible : Bool
  tsize : Nat
  tyname : Nat
deriving DecidableEq, Repr

/-- Model of val_detail::op<T> (val.hpp lines 114-132). For CLONE with a
null placement the new value is heap allocated at a fresh address, supplied
here as the argument fresh; with a non-null placement the value is
constructed in place at the placement address. -/
def op (ti : TypeOps) (o : operation) (placement fresh : Nat) : Except CppErr Nat :=
  match o with
  | .CLONE =>
    if ti.copy_constructible then
      if placement = 0 then .ok fresh else .ok placement
    else .error .logicError
  | .DELETE => .ok 0
  | .DESTRUCT => .ok 0
  | .SIZE => .ok ti.tsize
  | .TYPE => .ok ti.tyname

/-- Descriptor view of a value container used by the dispatcher claims:
its block, its stored upcast offset and the dispatcher bound at
construction time. -/
structure ValM where
  blk : block
  upcast_offset : Nat
  ops : TypeOps
deriving DecidableEq, Repr

/-- Model of the ownership-taking constructors val(U *) and val(T *)
(val.hpp lines 379 and 393): a block is created around the supplied
address (failing for null per blockNew) and the internal handle increments
its counter; no clone is attempted, so a type that is not copy
constructible is accepted without any error at construction time. -/
def val_from_owned (ti : TypeOps) (vaddr : Nat) : Except CppErr ValM :=
  match blockNew vaddr with
  | .error e => .error e
  | .ok b => .ok ⟨{ b with count := b.count + 1 }, 0, ti⟩

/-! ## Pointer offsets and conversions (val.hpp lines 77-90 and 222-334)

Effective addresses and upcast offsets are size_t values; their arithmetic
is modulo 2 ^ 64. A class hierarchy is a Layout: disp u t = some δ says t
is a base class of u and the t sub-object of a u object at address a lives
at address a + δ. The two structural laws are the layout facts guaranteed
by the C++ object model. -/

def W : Nat := 2 ^ 64

structure Layout where
  disp : Nat → Nat → Option Nat
  disp_refl : ∀ t, disp t t = some 0
  disp_trans : ∀ d u t a b, disp d u = some a → disp u t = some b →
    disp d t = some (a + b)

/-- Address of the t sub-object of an object of dynamic type d placed at
address a, per the layout. -/
def subAddr (L : Layout) (d t a : Nat) : Nat :=
  (a + (L.disp d t).getD 0) % W

/-- Model of val_detail::compute_upcast_offset<T, U> (val.hpp lines 85-88):
(size_t)((T*)((U*)1)) - 1. When T is a base of U the C style cast is an
upcast that adds the base displacement, so the result is disp U T. When U
is a base of T the cast is a static downcast that subtracts the
displacement, so the size_t result wraps to the negation of disp T U
modulo 2 ^ 64. -/
def compute_upcast_offset (L : Layout) (t u : Nat) : Nat :=
  match L.disp u t with
  | some δ => δ % W
  | none =>
    match L.disp t u with
    | some δ => (W - δ % W) % W
    | none => 0

/-- Descriptor data that the conversion constructors manipulate: the
address held by the block and the size_t upcast offset (the block pointer
and dispatcher are tracked in the state machine below). -/
structure PtrM where
  data : Nat
  upcast_offset : Nat
deriving DecidableEq, Repr

/-- Model of ptr<T>::operator-> (val.hpp lines 285-290): the loaded block
data plus the stored offset. -/
def deref (p : PtrM) : Nat :=
  (p.data + p.upcast_offset) % W

/-- Model of the widening conversions, ptr<T>::ptr(ptr<U> const &) at
val.hpp lines 242-247, the widening assignment at lines 249-257, and
ptr<T>::ptr(val<U> const &) at lines 259-264: all recompute the offset by
adding compute_upcast_offset<T, U>, with no runtime check. -/
def widen (L : Layout) (t u : Nat) (p : PtrM) : PtrM :=
  { p with upcast_offset := (p.upcast_offset + compute_upcast_offset L t u) % W }

/-- Size_t subtraction modulo 2 ^ 64, used by the narrowing paths which
execute upcast_offset -= compute_upcast_offset<T, U>. -/
def subW (x y : Nat) : Nat :=
  (x + (W - y % W)) % W

/-- Model of the narrowing constructor from a value container, explicit
ptr<T>::ptr(val<U> const &) at val.hpp lines 266-275: it performs
dynamic_cast<T*> on the stored value and throws when the result is null,
that is, exactly when the dynamic type d of the erased value does not have
t among its bases. The argument d is that dynamic type. -/
def narrowFromVal (L : Layout) (t u d : Nat) (p : PtrM) : Except CppErr PtrM :=
  if (L.disp d t).isSome then
    .ok { p with upcast_offset := subW p.upcast_offset (compute_upcast_offset L t u) }
  else
    .error .badCast

/-- Model of the narrowing constructor from another handle, explicit
ptr<T>::ptr(ptr<U> const &) at val.hpp lines 277-283: the source computes
dynamic_cast<U*>(&*other), an always-successful cast to the static type U,
ignores the result, and performs no null check, so the conversion always
completes regardless of the dynamic type of the erased value. -/
def narrowFromPtr (L : Layout) (t u : Nat) (p : PtrM) : Except CppErr PtrM :=
  .ok { p with upcast_offset := subW p.upcast_offset (compute_upcast_offset L t u) }

/-- Model of the value path of val::clone (val.hpp lines 439-442): the
CLONE operation is dispatched with a null placement, and the address of
the fresh heap copy adjusted by the stored offset is handed to the caller
inside a unique_ptr; an error from the dispatcher propagates. -/
def val_clone (m : ValM) (fresh : Nat) : Except CppErr Nat :=
  match op m.ops .CLONE 0 fresh with
  | .error e => .error e
  | .ok a => .ok ((a + m.upcast_offset) % W)

/-- Concrete displacement table for witnesses: type 0 is a base (Shape),
type 1 (Circle) derives from it at displacement 4, type 2 (Square) derives
from it at displacement 8. -/
def LexDisp (d u : Nat) : Option Nat :=
  if d = u then some 0
  else if d = 1 ∧ u = 0 then some 4
  else if d = 2 ∧ u = 0 then some 8
  else none

theorem LexDisp_char {d u a : Nat} :
    LexDisp d u = some a ↔
      (d = u ∧ a = 0) ∨ (d = 1 ∧ u = 0 ∧ a = 4) ∨ (d = 2 ∧ u = 0 ∧ a = 8) := by
  unfold LexDisp
  split_ifs with h1 h2 h3 <;> simp <;> omega

def Lex : Layout where
  disp := LexDisp
  disp_refl := by
    intro t
    exact LexDisp_char.2 (Or.inl ⟨rfl, rfl⟩)
  disp_trans := by
    intro d u t a b h1 h2
    rw [LexDisp_char] at h1 h2 ⊢
    omega

/-! ## Storage selection (val.hpp lines 350-376)

val<T, SmallStorageSize>::emplacement_ptr begins with an unconditional
return nullptr, so the small-storage branch below it is dead code and
every construction takes the heap branch of construct. -/

/-- Model of val::emplacement_ptr (val.hpp lines 350-356). The first
statement of the C++ body is return nullptr, so the function is constantly
none; the branch that would hand out the small-storage buffer is
unreachable and is transcribed separately as emplacement_tail. -/
def emplacement_ptr (SmallStorageSize small_storage_addr dataSize : Nat) : Option Nat :=
  none

/-- Transcription of the dead code after the early exit in emplacement_ptr
(val.hpp lines 352-355): had the early return been absent, a dataSize not
exceeding SmallStorageSize would select the inline buffer. -/
def emplacement_tail (SmallStorageSize small_storage_addr dataSize : Nat) : Option Nat :=
  if dataSize ≤ SmallStorageSize then some small_storage_addr else none

inductive StorageChoice where
  | onHeap (addr : Nat)
  | inBuffer (addr : Nat)
deriving DecidableEq, Repr

/-- Model of val::construct (val.hpp lines 358-376): ask emplacement_ptr
for inline storage; on nullptr allocate on the heap (at the fresh address
heapFresh), otherwise construct in place in the returned buffer. -/
def construct (S a n heapFresh : Nat) : StorageChoice :=
  match emplacement_ptr S a n with
  | none => .onHeap heapFresh
  | some p => .inBuffer p

/-! ## Destructor of val (val.hpp lines 415-429) -/

inductive DtorAction where
  | abort (dangling : Int)
  | destructInPlace
  | heapDelete (addr : Nat)
deriving DecidableEq, Repr

/-- Model of val::~val (val.hpp lines 415-429): exchange the block data
pointer with null, then if the counter differs from 1 abort the process;
otherwise dispatch DESTRUCT when the buffer is the inline small storage
and DELETE otherwise. The returned block is the state of the block after
the exchange; the action records which path ran. -/
def val_dtor (b : block) (small_storage_addr : Nat) : block × DtorAction :=
  if b.count ≠ 1 then ({ b with data := 0 }, .abort (b.count - 1))
  else if b.data = small_storage_addr then ({ b with data := 0 }, .destructInPlace)
  else ({ b with data := 0 }, .heapDelete b.data)

/-! ## Association lists

The state machine below stores the live blocks, handles and value
containers in association lists keyed by allocation ids. -/

def lookupA {α : Type} : List (Nat × α) → Nat → Option α
  | [], _ => none
  | p :: t, k => if p.1 = k then some p.2 else lookupA t k

def eraseA {α : Type} : List (Nat × α) → Nat → List (Nat × α)
  | [], _ => []
  | p :: t, k => if p.1 = k then eraseA t k else p :: eraseA t k

def mapAt {α : Type} : List (Nat × α) → Nat → (α → α) → List (Nat × α)
  | [], _, _ => []
  | p :: t, k, f => (if p.1 = k then (p.1, f p.2) else p) :: mapAt t k f

def setA (l : List (Nat × Nat)) (k v : Nat) : List (Nat × Nat) :=
  mapAt l k (fun _ => v)

def countV : List (Nat × Nat) → Nat → Nat
  | [], _ => 0
  | p :: t, b => (if p.2 = b then 1 else 0) + countV t b

def keys {α : Type} (l : List (Nat × α)) : List Nat :=
  l.map Prod.fst

/-! ## Deep copy of a value container (val.hpp lines 320-328 and 391)

The copy constructor val(val const &) delegates to ptr<T>::clone with a
null placement (emplacement_ptr is constantly none), which clones the
erased value to a fresh heap address and wraps it in a freshly allocated
block. The value heap is an association list from addresses to abstract
value contents. -/

structure VStore where
  store : List (Nat × Nat)
  nextAddr : Nat
  nextBlock : Nat
deriving DecidableEq, Repr

/-- View of a val relevant to the copy: the id of its backing block and
the address held in block data. -/
structure ValV where
  blockId : Nat
  dataAddr : Nat
deriving DecidableEq, Repr

/-- Model of the copy constructor val(val const &) (val.hpp line 391): via
ptr<T>::clone (lines 320-328) the erased value is cloned to the fresh heap
address st.nextAddr and a fresh block is allocated around the clone; the
copy never reuses the block of the source. -/
def val_copy (st : VStore) (v : ValV) : VStore × ValV :=
  let a := st.nextAddr
  let cloned := (lookupA st.store v.dataAddr).getD 0
  (⟨(a, cloned) :: st.store, a + 1, st.nextBlock + 1⟩, ⟨st.nextBlock, a⟩)

/-- Model of writing the stored value through the dereference of the
internal handle of a container: the content at the data address of the
container is replaced. -/
def mutate (st : VStore) (v : ValV) (x : Nat) : VStore :=
  { st with store := setA st.store v.dataAddr x }

/-- Model of reading the stored value through a container. -/
def read (st : VStore) (v : ValV) : Option Nat :=
  lookupA st.store v.dataAddr

/-! ## Reference-counting state machine (val.hpp lines 56-75, 222-306,
379-429 and 439-442)

A state holds the allocated blocks (id to counter and data address), the
live external observer handles (id to the id of the block their descriptor
references), and the live value containers (id to the id of the block
their internal handle references). Aborting (the fatal lifetime check in
the val destructor) and invalid operations on dead ids both yield none.
The data addresses of blocks are irrelevant to the counting protocol and
are fixed to 1. -/

structure Sys where
  blocks : List (Nat × block)
  handles : List (Nat × Nat)
  vals : List (Nat × Nat)
  next : Nat
deriving DecidableEq, Repr

/-- Model of block::increment (val.hpp lines 66-68) applied to the block
with the given id. -/
def incBlocks (l : List (Nat × block)) (b : Nat) : List (Nat × block) :=
  mapAt l b (fun bl => { bl with count := bl.count + 1 })

/-- Model of block::decrement (val.hpp lines 70-74): fetch_sub returning 1
deletes the block, otherwise the counter simply drops by one. -/
def decBlocks (l : List (Nat × block)) (b : Nat) : List (Nat × block) :=
  match lookupA l b with
  | none => l
  | some bl =>
    if bl.count = 1 then eraseA l b
    else mapAt l b (fun bl => { bl with count := bl.count - 1 })

inductive Op where
  | newVal
  | copyVal (v : Nat)
  | destroyVal (v : Nat)
  | newPtrFromVal (v : Nat)
  | copyPtr (h : Nat)
  | assignPtr (dst src : Nat)
  | destroyPtr (h : Nat)
  | cloneVal (v : Nat)
deriving DecidableEq, Repr

/-- Transition function of the machine. Each arm is a transcription of one
public operation of val.hpp:
newVal is val(U *) (line 379): new block(v) starts at count 0 and the
internal ptr constructor (line 304) increments it to 1;
copyVal is val(val const &) (line 391): ptr::clone builds a fresh block at
count 0 (line 327) and the ptr constructor from a descriptor (line 300)
increments it, the source is untouched;
destroyVal is val::~val (lines 415-429): abort (none) unless the counter
is exactly 1, otherwise the value dies and the internal handle destructor
brings the counter to 0, freeing the block;
newPtrFromVal is ptr<T>(val<U> const &) (lines 259-264): share the
descriptor of the container and increment;
copyPtr is ptr(ptr const &) (lines 222-226): share and increment;
assignPtr is ptr::operator= (lines 228-234 and 249-257): increment the new
block, exchange the descriptor, then decrement the old block;
destroyPtr is ptr::~ptr (lines 236-239): decrement;
cloneVal is val::clone (lines 439-442): ptr::clone allocates a fresh block
at count 0 around the cloned value and hands only the value, never the
block, to the caller. -/
def step (s : Sys) : Op → Option Sys
  | .newVal =>
    some ⟨(s.next, ⟨1, 1⟩) :: s.blocks, s.handles, (s.next, s.next) :: s.vals, s.next + 1⟩
  | .copyVal v =>
    match lookupA s.vals v with
    | none => none
    | some _ =>
      some ⟨(s.next, ⟨1, 1⟩) :: s.blocks, s.handles, (s.next, s.next) :: s.vals, s.next + 1⟩
  | .destroyVal v =>
    match lookupA s.vals v with
    | none => none
    | some b =>
      match lookupA s.blocks b with
      | none => none
      | some bl =>
        if bl.count = 1 then
          some ⟨eraseA s.blocks b, s.handles, eraseA s.vals v, s.next⟩
        else none
  | .newPtrFromVal v =>
    match lookupA s.vals v with
    | none => none
    | some b =>
      some ⟨incBlocks s.blocks b, (s.next, b) :: s.handles, s.vals, s.next + 1⟩
  | .copyPtr h =>
    match lookupA s.handles h with
    | none => none
    | some b =>
      some ⟨incBlocks s.blocks b, (s.next, b) :: s.handles, s.vals, s.next + 1⟩
  | .assignPtr dst src =>
    match lookupA s.handles dst, lookupA s.handles src with
    | some bOld, some bNew =>
      some ⟨decBlocks (incBlocks s.blocks bNew) bOld, setA s.handles dst bNew, s.vals, s.next⟩
    | _, _ => none
  | .destroyPtr h =>
    match lookupA s.handles h with
    | none => none
    | some b =>
      some ⟨decBlocks s.blocks b, eraseA s.handles h, s.vals, s.next⟩
  | .cloneVal v =>
    match lookupA s.vals v with
    | none => none
    | some _ =>
      some ⟨(s.next, ⟨0, 1⟩) :: s.blocks, s.handles, s.vals, s.next + 1⟩

def sys0 : Sys := ⟨[], [], [], 0⟩

def run (s : Sys) : List Op → Option Sys
  | [] => some s
  | o :: rest =>
    match step s o with
    | none => none
    | some s1 => run s1 rest

/-- Well-formedness of a machine state: the counter of every allocated
block equals the number of live handles referencing it plus the number of
value containers whose internal handle references it; handles and
containers reference allocated blocks; all ids are below the allocation
bound and are unique; and no two containers share a block. -/
@[reducible]
def wf (s : Sys) : Prop :=
  (∀ p ∈ s.blocks, p.2.count = ((countV s.handles p.1 + countV s.vals p.1 : Nat) : Int)) ∧
  (∀ p ∈ s.handles, (lookupA s.blocks p.2).isSome = true) ∧
  (∀ p ∈ s.vals, (lookupA s.blocks p.2).isSome = true) ∧
  (∀ p ∈ s.blocks, p.1 < s.next) ∧
  (∀ p ∈ s.handles, p.1 < s.next) ∧
  (∀ p ∈ s.vals, p.1 < s.next) ∧
  (keys s.blocks).Nodup ∧
  (keys s.handles).Nodup ∧
  (keys s.vals).Nodup ∧
  (s.vals.map Prod.snd).Nodup

/-! ## Lemmas about the association-list primitives -/

theorem lookupA_mem {α : Type} {l : List (Nat × α)} {k : Nat} {v : α}
    (h : lookupA l k = some v) : (k, v) ∈ l := by
  induction l with
  | nil => simp [lookupA] at h
  | cons p t ih =>
    rw [lookupA] at h
    split at h
    · next heq =>
      cases h
      subst heq
      exact List.mem_cons_self _ _
    · exact List.mem_cons_of_mem _ (ih h)

theorem lookupA_of_mem_nodup {α : Type} {l : List (Nat × α)} {k : Nat} {v : α}
    (hnd : (keys l).Nodup) (h : (k, v) ∈ l) : lookupA l k = some v := by
  induction l with
  | nil => simp at h
  | cons p t ih =>
    rw [keys, List.map_cons, List.nodup_cons] at hnd
    rcases List.mem_cons.1 h with h | h
    · subst h
      simp [lookupA]
    · have hk : p.1 ≠ k := by
        intro hpk
        exact hnd.1 (hpk ▸ (List.mem_map.2 ⟨(k, v), h, rfl⟩))
      rw [lookupA, if_neg hk]
      exact ih hnd.2 h

theorem lookupA_isSome_ex {α : Type} {l : List (Nat × α)} {k : Nat}
    (h : (lookupA l k).isSome = true) : ∃ v, lookupA l k = some v := by
  cases hv : lookupA l k with
  | none => rw [hv] at h; simp at h
  | some v => exact ⟨v, rfl⟩

theorem lookupA_eraseA {α : Type} (l : List (Nat × α)) (k k2 : Nat) :
    lookupA (eraseA l k) k2 = if k2 = k then none else lookupA l k2 := by
  induction l with
  | nil => simp [lookupA, eraseA]
  | cons p t ih =>
    by_cases hp : p.1 = k
    · rw [eraseA, if_pos hp, ih, lookupA]
      by_cases hk : k2 = k
      · simp [hk]
      · rw [if_neg hk, if_neg hk, if_neg (by omega : ¬p.1 = k2)]
    · rw [eraseA, if_neg hp, lookupA, lookupA]
      by_cases hp2 : p.1 = k2
      · have : ¬k2 = k := by omega
        simp [hp2, this]
      · rw [if_neg hp2, if_neg hp2, ih]

theorem lookupA_mapAt {α : Type} (l : List (Nat × α)) (k k2 : Nat) (f : α → α) :
    lookupA (mapAt l k f) k2 =
      if k2 = k then (lookupA l k).map f else lookupA l k2 := by
  induction l with
  | nil => simp [lookupA, mapAt]
  | cons p t ih =>
    by_cases hk : k2 = k
    · subst hk
      by_cases hp : p.1 = k2
      · simp [mapAt, lookupA, hp]
      · simp [mapAt, lookupA, hp, ih]
    · by_cases hp : p.1 = k
      · have hp2 : ¬p.1 = k2 := by omega
        have hk2 : ¬k = k2 := by omega
        simp [mapAt, lookupA, hp, hp2, ih, hk, hk2]
      · by_cases hp2 : p.1 = k2
        · simp [mapAt, lookupA, hp, hp2, hk]
        · simp [mapAt, lookupA, hp, hp2, ih, hk]

theorem mem_eraseA {α : Type} {l : List (Nat × α)} {k : Nat} {p : Nat × α} :
    p ∈ eraseA l k ↔ p ∈ l ∧ p.1 ≠ k := by
  induction l with
  | nil => simp [eraseA]
  | cons q t ih =>
    rw [eraseA]
    by_cases hq : q.1 = k
    · rw [if_pos hq, ih]
      constructor
      · rintro ⟨hm, hk⟩
        exact ⟨List.mem_cons_of_mem _ hm, hk⟩
      · rintro ⟨hm, hk⟩
        rcases List.mem_cons.1 hm with h | h
        · subst h; omega
        · exact ⟨h, hk⟩
    · rw [if_neg hq]
      constructor
      · intro hm
        rcases List.mem_cons.1 hm with h | h
        · subst h; exact ⟨List.mem_cons_self _ _, hq⟩
        · obtain ⟨hm2, hk⟩ := ih.1 h
          exact ⟨List.mem_cons_of_mem _ hm2, hk⟩
      · rintro ⟨hm, hk⟩
        rcases List.mem_cons.1 hm with h | h
        · subst h; exact List.mem_cons_self _ _
        · exact List.mem_cons_of_mem _ (ih.2 ⟨h, hk⟩)

theorem mem_mapAt {α : Type} {l : List (Nat × α)} {k : Nat} {f : α → α} {p : Nat × α}
    (h : p ∈ mapAt l k f) :
    (∃ x, (k, x) ∈ l ∧ p = (k, f x)) ∨ (p ∈ l ∧ p.1 ≠ k) := by
  induction l with
  | nil => simp [mapAt] at h
  | cons q t ih =>
    rw [mapAt] at h
    rcases List.mem_cons.1 h with h | h
    · by_cases hq : q.1 = k
      · rw [if_pos hq] at h
        refine Or.inl ⟨q.2, ?_, ?_⟩
        · rw [← hq]
          exact List.mem_cons_self q t
        · rw [← hq]
          exact h
      · rw [if_neg hq] at h
        subst h
        exact Or.inr ⟨List.mem_cons_self _ _, hq⟩
    · rcases ih h with ⟨x, hm, hp⟩ | ⟨hm, hk⟩
      · exact Or.inl ⟨x, List.mem_cons_of_mem _ hm, hp⟩
      · exact Or.inr ⟨List.mem_cons_of_mem _ hm, hk⟩

theorem keys_mapAt {α : Type} (l : List (Nat × α)) (k : Nat) (f : α → α) :
    keys (mapAt l k f) = keys l := by
  induction l with
  | nil => rfl
  | cons p t ih =>
    rw [mapAt, keys, List.map_cons, keys, List.map_cons, ← keys, ← keys, ih]
    by_cases hp : p.1 = k
    · rw [if_pos hp]
    · rw [if_neg hp]

theorem eraseA_sublist {α : Type} (l : List (Nat × α)) (k : Nat) :
    List.Sublist (eraseA l k) l := by
  induction l with
  | nil => simp [eraseA]
  | cons p t ih =>
    rw [eraseA]
    by_cases hp : p.1 = k
    · rw [if_pos hp]
      exact ih.cons _
    · rw [if_neg hp]
      exact ih.cons₂ _

theorem keys_nodup_eraseA {α : Type} {l : List (Nat × α)} {k : Nat}
    (h : (keys l).Nodup) : (keys (eraseA l k)).Nodup :=
  List.Nodup.sublist ((eraseA_sublist l k).map Prod.fst) h

theorem snds_nodup_eraseA {l : List (Nat × Nat)} {k : Nat}
    (h : (l.map Prod.snd).Nodup) : ((eraseA l k).map Prod.snd).Nodup :=
  List.Nodup.sublist ((eraseA_sublist l k).map Prod.snd) h

theorem countV_cons (p : Nat × Nat) (l : List (Nat × Nat)) (b : Nat) :
    countV (p :: l) b = (if p.2 = b then 1 else 0) + countV l b := rfl

theorem countV_cons_kv (k v : Nat) (l : List (Nat × Nat)) (b : Nat) :
    countV ((k, v) :: l) b = (if v = b then 1 else 0) + countV l b := rfl

theorem countV_pos_of_mem {l : List (Nat × Nat)} {k b : Nat}
    (h : (k, b) ∈ l) : 1 ≤ countV l b := by
  induction l with
  | nil => simp at h
  | cons p t ih =>
    rw [countV_cons]
    rcases List.mem_cons.1 h with hp | hp
    · rw [← hp]
      simp
    · have := ih hp
      omega

theorem countV_eq_zero {l : List (Nat × Nat)} {b : Nat} :
    countV l b = 0 ↔ ∀ p ∈ l, p.2 ≠ b := by
  induction l with
  | nil => simp [countV]
  | cons p t ih =>
    rw [countV_cons]
    constructor
    · intro h q hq
      have h1 : countV t b = 0 := by omega
      have h2 : ¬p.2 = b := by
        by_cases hp : p.2 = b
        · rw [if_pos hp] at h
          omega
        · exact hp
      rcases List.mem_cons.1 hq with rfl | hm
      · exact h2
      · exact ih.1 h1 q hm
    · intro h
      have hp := h p (List.mem_cons_self _ _)
      have ht : countV t b = 0 := ih.2 (fun q hq => h q (List.mem_cons_of_mem _ hq))
      rw [if_neg hp]
      omega

theorem countV_eq_one {l : List (Nat × Nat)} {v b : Nat} (hnd : (l.map Prod.snd).Nodup)
    (h : (v, b) ∈ l) : countV l b = 1 := by
  induction l with
  | nil => simp at h
  | cons p t ih =>
    rw [List.map_cons, List.nodup_cons] at hnd
    rw [countV_cons]
    rcases List.mem_cons.1 h with he | hm
    · have hp2 : p.2 = b := by rw [← he]
      rw [if_pos hp2]
      have ht0 : countV t b = 0 := countV_eq_zero.2 (fun q hq hqb => by
        apply hnd.1
        rw [hp2]
        exact List.mem_map.2 ⟨q, hq, hqb⟩)
      omega
    · have hp2 : p.2 ≠ b := by
        intro he2
        apply hnd.1
        rw [he2]
        exact List.mem_map.2 ⟨(v, b), hm, rfl⟩
      rw [if_neg hp2]
      have := ih hnd.2 hm
      omega

theorem countV_eraseA {l : List (Nat × Nat)} {k b : Nat}
    (hnd : (keys l).Nodup) (h : lookupA l k = some b) (b2 : Nat) :
    countV l b2 = countV (eraseA l k) b2 + (if b = b2 then 1 else 0) := by
  induction l with
  | nil => simp [lookupA] at h
  | cons p t ih =>
    rw [keys, List.map_cons, List.nodup_cons] at hnd
    rw [lookupA] at h
    rw [countV_cons, eraseA]
    by_cases hp : p.1 = k
    · rw [if_pos hp] at h ⊢
      cases h
      have hterase : eraseA t k = t := by
        have : ∀ q ∈ t, q.1 ≠ k := by
          intro q hq hqk
          exact hnd.1 (by rw [hp, ← hqk]; exact List.mem_map.2 ⟨q, hq, rfl⟩)
        clear ih hnd
        induction t with
        | nil => rfl
        | cons q t2 ih2 =>
          rw [eraseA, if_neg (this q (List.mem_cons_self _ _))]
          rw [ih2 (fun r hr => this r (List.mem_cons_of_mem _ hr))]
      rw [hterase]
      omega
    · rw [if_neg hp] at h ⊢
      rw [countV_cons, ih hnd.2 h]
      omega

theorem countV_setA {l : List (Nat × Nat)} {k bOld : Nat}
    (hnd : (keys l).Nodup) (h : lookupA l k = some bOld) (bNew b2 : Nat) :
    countV (setA l k bNew) b2 + (if bOld = b2 then 1 else 0) =
      countV l b2 + (if bNew = b2 then 1 else 0) := by
  induction l with
  | nil => simp [lookupA] at h
  | cons p t ih =>
    rw [keys, List.map_cons, List.nodup_cons] at hnd
    rw [lookupA] at h
    by_cases hp : p.1 = k
    · rw [if_pos hp] at h
      cases h
      have htset : mapAt t k (fun _ => bNew) = t := by
        have : ∀ q ∈ t, q.1 ≠ k := by
          intro q hq hqk
          exact hnd.1 (by rw [hp, ← hqk]; exact List.mem_map.2 ⟨q, hq, rfl⟩)
        clear ih hnd
        induction t with
        | nil => rfl
        | cons q t2 ih2 =>
          rw [mapAt, if_neg (this q (List.mem_cons_self _ _))]
          rw [ih2 (fun r hr => this r (List.mem_cons_of_mem _ hr))]
      have hL : countV (setA (p :: t) k bNew) b2 =
          (if bNew = b2 then 1 else 0) + countV t b2 := by
        rw [setA, mapAt, if_pos hp, htset]
        exact countV_cons_kv p.1 bNew t b2
      have hR : countV (p :: t) b2 = (if p.2 = b2 then 1 else 0) + countV t b2 := rfl
      rw [hL, hR]
      omega
    · rw [if_neg hp] at h
      have hmain := ih hnd.2 h
      have hL : countV (setA (p :: t) k bNew) b2 =
          (if p.2 = b2 then 1 else 0) + countV (setA t k bNew) b2 := by
        rw [setA, mapAt, if_neg hp]
        rfl
      have hR : countV (p :: t) b2 = (if p.2 = b2 then 1 else 0) + countV t b2 := rfl
      rw [hL, hR]
      omega

theorem lookupA_cons {α : Type} (q : Nat × α) (l : List (Nat × α)) (k : Nat) :
    lookupA (q :: l) k = if q.1 = k then some q.2 else lookupA l k := rfl

theorem lookupA_cons_isSome {α : Type} {l : List (Nat × α)} {k : Nat} (q : Nat × α)
    (h : (lookupA l k).isSome = true) : (lookupA (q :: l) k).isSome = true := by
  rw [lookupA_cons]
  by_cases hq : q.1 = k
  · simp [hq]
  · simp [hq, h]

theorem lookupA_mapAt_isSome {α : Type} {l : List (Nat × α)} {k : Nat} (k2 : Nat) (f : α → α)
    (h : (lookupA l k).isSome = true) : (lookupA (mapAt l k2 f) k).isSome = true := by
  obtain ⟨x, hx⟩ := lookupA_isSome_ex h
  rw [lookupA_mapAt]
  by_cases hk : k = k2
  · subst hk
    rw [hx]
    simp
  · simp [hk, hx]

theorem refs_snd_lt {blocks : List (Nat × block)} {refs : List (Nat × Nat)} {next : Nat}
    (hok : ∀ p ∈ refs, (lookupA blocks p.2).isSome = true)
    (hbb : ∀ p ∈ blocks, p.1 < next) :
    ∀ p ∈ refs, p.2 < next := by
  intro p hp
  obtain ⟨bl, hbl⟩ := lookupA_isSome_ex (hok p hp)
  exact hbb _ (lookupA_mem hbl)

theorem countV_fresh {blocks : List (Nat × block)} {refs : List (Nat × Nat)} {next : Nat}
    (hok : ∀ p ∈ refs, (lookupA blocks p.2).isSome = true)
    (hbb : ∀ p ∈ blocks, p.1 < next) :
    countV refs next = 0 :=
  countV_eq_zero.2 (fun p hp => by
    have := refs_snd_lt hok hbb p hp
    omega)

theorem fresh_not_mem_keys {α : Type} {l : List (Nat × α)} {n : Nat}
    (h : ∀ p ∈ l, p.1 < n) : n ∉ keys l := by
  intro hmem
  obtain ⟨p, hp, hpn⟩ := List.mem_map.1 hmem
  have := h p hp
  omega

theorem snd_nodup_unique {l : List (Nat × Nat)} (h : (l.map Prod.snd).Nodup)
    {p q : Nat × Nat} (hp : p ∈ l) (hq : q ∈ l) (he : p.2 = q.2) : p = q := by
  induction l with
  | nil => simp at hp
  | cons r t ih =>
    rw [List.map_cons, List.nodup_cons] at h
    rcases List.mem_cons.1 hp with rfl | hp2 <;> rcases List.mem_cons.1 hq with rfl | hq2
    · rfl
    · exact absurd (List.mem_map.2 ⟨q, hq2, he.symm⟩) h.1
    · exact absurd (List.mem_map.2 ⟨p, hp2, he⟩) h.1
    · exact ih h.2 hp2 hq2

/-! ## Preservation of well-formedness by each operation -/

theorem wf_newContainer {s : Sys} (hwf : wf s) :
    wf ⟨(s.next, ⟨1, 1⟩) :: s.blocks, s.handles, (s.next, s.next) :: s.vals, s.next + 1⟩ := by
  obtain ⟨hcnt, hhok, hvok, hbb, hhb, hvb, hbn, hhn, hvn, hsn⟩ := hwf
  have hhfresh : countV s.handles s.next = 0 := countV_fresh hhok hbb
  have hvfresh : countV s.vals s.next = 0 := countV_fresh hvok hbb
  refine ⟨?_, ?_, ?_, ?_, ?_, ?_, ?_, ?_, ?_, ?_⟩ <;> dsimp only
  · intro p hp
    rcases List.mem_cons.1 hp with rfl | hp2
    · show (1 : Int) =
        ((countV s.handles s.next + countV ((s.next, s.next) :: s.vals) s.next : Nat) : Int)
      rw [countV_cons_kv, if_pos rfl, hhfresh, hvfresh]
      omega
    · have := hcnt p hp2
      have hlt := hbb p hp2
      rw [countV_cons_kv, if_neg (by omega : ¬s.next = p.1)]
      omega
  · intro p hp
    exact lookupA_cons_isSome _ (hhok p hp)
  · intro p hp
    rcases List.mem_cons.1 hp with rfl | hp2
    · show (lookupA ((s.next, (⟨1, 1⟩ : block)) :: s.blocks) s.next).isSome = true
      rw [lookupA_cons, if_pos rfl]
      rfl
    · exact lookupA_cons_isSome _ (hvok p hp2)
  · intro p hp
    rcases List.mem_cons.1 hp with rfl | hp2
    · show s.next < s.next + 1
      omega
    · have := hbb p hp2
      omega
  · intro p hp
    have := hhb p hp
    omega
  · intro p hp
    rcases List.mem_cons.1 hp with rfl | hp2
    · show s.next < s.next + 1
      omega
    · have := hvb p hp2
      omega
  · rw [keys, List.map_cons, List.nodup_cons]
    exact ⟨fresh_not_mem_keys hbb, hbn⟩
  · exact hhn
  · rw [keys, List.map_cons, List.nodup_cons]
    exact ⟨fresh_not_mem_keys hvb, hvn⟩
  · rw [List.map_cons, List.nodup_cons]
    refine ⟨?_, hsn⟩
    intro hmem
    obtain ⟨p, hp, hpn⟩ := List.mem_map.1 hmem
    have := refs_snd_lt hvok hbb p hp
    omega

theorem wf_orphanBlock {s : Sys} (hwf : wf s) :
    wf ⟨(s.next, ⟨0, 1⟩) :: s.blocks, s.handles, s.vals, s.next + 1⟩ := by
  obtain ⟨hcnt, hhok, hvok, hbb, hhb, hvb, hbn, hhn, hvn, hsn⟩ := hwf
  have hhfresh : countV s.handles s.next = 0 := countV_fresh hhok hbb
  have hvfresh : countV s.vals s.next = 0 := countV_fresh hvok hbb
  refine ⟨?_, ?_, ?_, ?_, ?_, ?_, ?_, ?_, ?_, ?_⟩ <;> dsimp only
  · intro p hp
    rcases List.mem_cons.1 hp with rfl | hp2
    · show (0 : Int) = ((countV s.handles s.next + countV s.vals s.next : Nat) : Int)
      rw [hhfresh, hvfresh]
      rfl
    · exact hcnt p hp2
  · intro p hp
    exact lookupA_cons_isSome _ (hhok p hp)
  · intro p hp
    exact lookupA_cons_isSome _ (hvok p hp)
  · intro p hp
    rcases List.mem_cons.1 hp with rfl | hp2
    · show s.next < s.next + 1
      omega
    · have := hbb p hp2
      omega
  · intro p hp
    have := hhb p hp
    omega
  · intro p hp
    have := hvb p hp
    omega
  · rw [keys, List.map_cons, List.nodup_cons]
    exact ⟨fresh_not_mem_keys hbb, hbn⟩
  · exact hhn
  · exact hvn
  · exact hsn

theorem wf_addHandle {s : Sys} {b : Nat} (hwf : wf s)
    (hb : (lookupA s.blocks b).isSome = true) :
    wf ⟨incBlocks s.blocks b, (s.next, b) :: s.handles, s.vals, s.next + 1⟩ := by
  obtain ⟨hcnt, hhok, hvok, hbb, hhb, hvb, hbn, hhn, hvn, hsn⟩ := hwf
  refine ⟨?_, ?_, ?_, ?_, ?_, ?_, ?_, ?_, ?_, ?_⟩ <;> dsimp only
  · intro p hp
    rcases mem_mapAt hp with ⟨x, hxmem, rfl⟩ | ⟨hp2, hne⟩
    · have hx : x.count = ((countV s.handles b + countV s.vals b : Nat) : Int) :=
        hcnt (b, x) hxmem
      show x.count + 1 =
        ((countV ((s.next, b) :: s.handles) b + countV s.vals b : Nat) : Int)
      rw [countV_cons_kv, if_pos rfl]
      omega
    · have hx := hcnt p hp2
      rw [countV_cons_kv, if_neg (by omega : ¬b = p.1)]
      omega
  · intro p hp
    rcases List.mem_cons.1 hp with rfl | hp2
    · exact lookupA_mapAt_isSome _ _ hb
    · exact lookupA_mapAt_isSome _ _ (hhok p hp2)
  · intro p hp
    exact lookupA_mapAt_isSome _ _ (hvok p hp)
  · intro p hp
    rcases mem_mapAt hp with ⟨x, hxmem, rfl⟩ | ⟨hp2, _⟩
    · have : b < s.next := hbb (b, x) hxmem
      show b < s.next + 1
      omega
    · have := hbb p hp2
      omega
  · intro p hp
    rcases List.mem_cons.1 hp with rfl | hp2
    · show s.next < s.next + 1
      omega
    · have := hhb p hp2
      omega
  · intro p hp
    have := hvb p hp
    omega
  · rw [incBlocks, keys_mapAt]
    exact hbn
  · rw [keys, List.map_cons, List.nodup_cons]
    exact ⟨fresh_not_mem_keys hhb, hhn⟩
  · exact hvn
  · exact hsn

theorem wf_destroyVal {s : Sys} {v b : Nat} {bl : block} (hwf : wf s)
    (hv : lookupA s.vals v = some b) (hb : lookupA s.blocks b = some bl)
    (h1 : bl.count = 1) :
    wf ⟨eraseA s.blocks b, s.handles, eraseA s.vals v, s.next⟩ := by
  obtain ⟨hcnt, hhok, hvok, hbb, hhb, hvb, hbn, hhn, hvn, hsn⟩ := hwf
  have hvmem : (v, b) ∈ s.vals := lookupA_mem hv
  have hcntb : bl.count = ((countV s.handles b + countV s.vals b : Nat) : Int) :=
    hcnt (b, bl) (lookupA_mem hb)
  have hcv1 : 1 ≤ countV s.vals b := countV_pos_of_mem hvmem
  have hch0 : countV s.handles b = 0 := by omega
  have herase := countV_eraseA hvn hv
  refine ⟨?_, ?_, ?_, ?_, ?_, ?_, ?_, ?_, ?_, ?_⟩ <;> dsimp only
  · intro p hp
    obtain ⟨hp2, hne⟩ := mem_eraseA.1 hp
    have hx := hcnt p hp2
    have h2 := herase p.1
    rw [if_neg (by omega : ¬b = p.1)] at h2
    omega
  · intro p hp
    have hne : p.2 ≠ b := by
      intro he
      have hmem : (p.1, b) ∈ s.handles := by
        rw [← he]
        exact hp
      have := countV_pos_of_mem hmem
      omega
    rw [lookupA_eraseA, if_neg hne]
    exact hhok p hp
  · intro p hp
    obtain ⟨hp2, hnev⟩ := mem_eraseA.1 hp
    have hne : p.2 ≠ b := by
      intro he
      have hpe : p = (v, b) := snd_nodup_unique hsn hp2 hvmem he
      exact hnev (by rw [hpe])
    rw [lookupA_eraseA, if_neg hne]
    exact hvok p hp2
  · intro p hp
    exact hbb p (mem_eraseA.1 hp).1
  · exact hhb
  · intro p hp
    exact hvb p (mem_eraseA.1 hp).1
  · exact keys_nodup_eraseA hbn
  · exact hhn
  · exact keys_nodup_eraseA hvn
  · exact snds_nodup_eraseA hsn

theorem wf_decHandle {s : Sys} {h b : Nat} (hwf : wf s)
    (hh : lookupA s.handles h = some b) :
    wf ⟨decBlocks s.blocks b, eraseA s.handles h, s.vals, s.next⟩ := by
  obtain ⟨hcnt, hhok, hvok, hbb, hhb, hvb, hbn, hhn, hvn, hsn⟩ := hwf
  have hhmem : (h, b) ∈ s.handles := lookupA_mem hh
  have hbsome : (lookupA s.blocks b).isSome = true := hhok (h, b) hhmem
  obtain ⟨bl, hbl⟩ := lookupA_isSome_ex hbsome
  have hcntb : bl.count = ((countV s.handles b + countV s.vals b : Nat) : Int) :=
    hcnt (b, bl) (lookupA_mem hbl)
  have hch1 : 1 ≤ countV s.handles b := countV_pos_of_mem hhmem
  have herase := countV_eraseA hhn hh
  simp only [decBlocks, hbl]
  by_cases h1 : bl.count = 1
  · rw [if_pos h1]
    have hch : countV s.handles b = 1 := by omega
    have hcv0 : countV s.vals b = 0 := by omega
    refine ⟨?_, ?_, ?_, ?_, ?_, ?_, ?_, ?_, ?_, ?_⟩ <;> dsimp only
    · intro p hp
      obtain ⟨hp2, hne⟩ := mem_eraseA.1 hp
      have hx := hcnt p hp2
      have h2 := herase p.1
      rw [if_neg (by omega : ¬b = p.1)] at h2
      omega
    · intro p hp
      obtain ⟨hp2, hneh⟩ := mem_eraseA.1 hp
      have hne : p.2 ≠ b := by
        intro he
        have hpmem : (p.1, b) ∈ eraseA s.handles h := by
          rw [← he]
          exact hp
        have := countV_pos_of_mem hpmem
        have h2 := herase b
        rw [if_pos rfl] at h2
        omega
      rw [lookupA_eraseA, if_neg hne]
      exact hhok p hp2
    · intro p hp
      have hne : p.2 ≠ b := by
        intro he
        have hmem : (p.1, b) ∈ s.vals := by
          rw [← he]
          exact hp
        have := countV_pos_of_mem hmem
        omega
      rw [lookupA_eraseA, if_neg hne]
      exact hvok p hp
    · intro p hp
      exact hbb p (mem_eraseA.1 hp).1
    · intro p hp
      exact hhb p (mem_eraseA.1 hp).1
    · exact hvb
    · exact keys_nodup_eraseA hbn
    · exact keys_nodup_eraseA hhn
    · exact hvn
    · exact hsn
  · rw [if_neg h1]
    refine ⟨?_, ?_, ?_, ?_, ?_, ?_, ?_, ?_, ?_, ?_⟩ <;> dsimp only
    · intro p hp
      rcases mem_mapAt hp with ⟨x, hxmem, rfl⟩ | ⟨hp2, hne⟩
      · have hxbl : x = bl := by
          have hlx := lookupA_of_mem_nodup hbn hxmem
          rw [hbl] at hlx
          exact (Option.some.inj hlx).symm
        subst hxbl
        show x.count - 1 = ((countV (eraseA s.handles h) b + countV s.vals b : Nat) : Int)
        have h2 := herase b
        rw [if_pos rfl] at h2
        omega
      · have hx := hcnt p hp2
        have h2 := herase p.1
        rw [if_neg (by omega : ¬b = p.1)] at h2
        omega
    · intro p hp
      obtain ⟨hp2, hneh⟩ := mem_eraseA.1 hp
      exact lookupA_mapAt_isSome _ _ (hhok p hp2)
    · intro p hp
      exact lookupA_mapAt_isSome _ _ (hvok p hp)
    · intro p hp
      rcases mem_mapAt hp with ⟨x, hxmem, rfl⟩ | ⟨hp2, _⟩
      · show b < s.next
        exact hbb (b, x) hxmem
      · exact hbb p hp2
    · intro p hp
      exact hhb p (mem_eraseA.1 hp).1
    · exact hvb
    · rw [keys_mapAt]
      exact hbn
    · exact keys_nodup_eraseA hhn
    · exact hvn
    · exact hsn

theorem wf_assign {s : Sys} {dst src bOld bNew : Nat} (hwf : wf s)
    (hd : lookupA s.handles dst = some bOld) (hs2 : lookupA s.handles src = some bNew) :
    wf ⟨decBlocks (incBlocks s.blocks bNew) bOld, setA s.handles dst bNew, s.vals, s.next⟩ := by
  obtain ⟨hcnt, hhok, hvok, hbb, hhb, hvb, hbn, hhn, hvn, hsn⟩ := hwf
  have hdmem : (dst, bOld) ∈ s.handles := lookupA_mem hd
  have hsmem : (src, bNew) ∈ s.handles := lookupA_mem hs2
  have hbOldsome : (lookupA s.blocks bOld).isSome = true := hhok (dst, bOld) hdmem
  have hbNewsome : (lookupA s.blocks bNew).isSome = true := hhok (src, bNew) hsmem
  obtain ⟨blOld, hblOld⟩ := lookupA_isSome_ex hbOldsome
  obtain ⟨blNew, hblNew⟩ := lookupA_isSome_ex hbNewsome
  have hcntOld : blOld.count = ((countV s.handles bOld + countV s.vals bOld : Nat) : Int) :=
    hcnt (bOld, blOld) (lookupA_mem hblOld)
  have hchOld : 1 ≤ countV s.handles bOld := countV_pos_of_mem hdmem
  have hkeys1 : (keys (incBlocks s.blocks bNew)).Nodup := by
    rw [incBlocks, keys_mapAt]
    exact hbn
  by_cases heq : bOld = bNew
  · subst heq
    rw [hblOld] at hblNew
    cases Option.some.inj hblNew
    have hl1 : lookupA (incBlocks s.blocks bOld) bOld =
        some { blOld with count := blOld.count + 1 } := by
      rw [incBlocks, lookupA_mapAt, if_pos rfl, hblOld]
      rfl
    simp only [decBlocks, hl1]
    rw [if_neg (show ¬({ blOld with count := blOld.count + 1 } : block).count = 1 by
      show ¬blOld.count + 1 = 1
      omega)]
    refine ⟨?_, ?_, ?_, ?_, ?_, ?_, ?_, ?_, ?_, ?_⟩ <;> dsimp only
    · intro p hp
      rcases mem_mapAt hp with ⟨y, hymem, rfl⟩ | ⟨hp2, hne⟩
      · have hly := lookupA_of_mem_nodup hkeys1 hymem
        rw [hl1] at hly
        cases Option.some.inj hly
        show blOld.count + 1 - 1 =
          ((countV (setA s.handles dst bOld) bOld + countV s.vals bOld : Nat) : Int)
        have h2 := countV_setA hhn hd bOld bOld
        rw [if_pos rfl] at h2
        omega
      · rcases mem_mapAt hp2 with ⟨x, hxmem, rfl⟩ | ⟨hp3, hne2⟩
        · exact absurd rfl hne
        · have hx := hcnt p hp3
          have h2 := countV_setA hhn hd bOld p.1
          rw [if_neg (by omega : ¬bOld = p.1)] at h2
          omega
    · intro p hp
      rcases mem_mapAt hp with ⟨x, hxmem, rfl⟩ | ⟨hp2, hne⟩
      · exact lookupA_mapAt_isSome _ _ (lookupA_mapAt_isSome _ _ hbOldsome)
      · exact lookupA_mapAt_isSome _ _ (lookupA_mapAt_isSome _ _ (hhok p hp2))
    · intro p hp
      exact lookupA_mapAt_isSome _ _ (lookupA_mapAt_isSome _ _ (hvok p hp))
    · intro p hp
      rcases mem_mapAt hp with ⟨y, hymem, rfl⟩ | ⟨hp2, hne⟩
      · show bOld < s.next
        rcases mem_mapAt hymem with ⟨x, hxmem, heq2⟩ | ⟨hp3, _⟩
        · exact hbb (bOld, x) hxmem
        · exact hbb _ hp3
      · rcases mem_mapAt hp2 with ⟨x, hxmem, rfl⟩ | ⟨hp3, _⟩
        · show bOld < s.next
          exact hbb (bOld, x) hxmem
        · exact hbb p hp3
    · intro p hp
      rcases mem_mapAt hp with ⟨x, hxmem, rfl⟩ | ⟨hp2, hne⟩
      · show dst < s.next
        exact hhb (dst, x) hxmem
      · exact hhb p hp2
    · exact hvb
    · rw [keys_mapAt, incBlocks, keys_mapAt]
      exact hbn
    · rw [setA, keys_mapAt]
      exact hhn
    · exact hvn
    · exact hsn
  · have hl1Old : lookupA (incBlocks s.blocks bNew) bOld = some blOld := by
      rw [incBlocks, lookupA_mapAt, if_neg heq, hblOld]
    simp only [decBlocks, hl1Old]
    by_cases h1 : blOld.count = 1
    · rw [if_pos h1]
      have hchO : countV s.handles bOld = 1 := by omega
      have hcvO : countV s.vals bOld = 0 := by omega
      refine ⟨?_, ?_, ?_, ?_, ?_, ?_, ?_, ?_, ?_, ?_⟩ <;> dsimp only
      · intro p hp
        obtain ⟨hp1, hpne⟩ := mem_eraseA.1 hp
        rcases mem_mapAt hp1 with ⟨x, hxmem, rfl⟩ | ⟨hp2, hne2⟩
        · have hx : x.count = ((countV s.handles bNew + countV s.vals bNew : Nat) : Int) :=
            hcnt (bNew, x) hxmem
          show x.count + 1 =
            ((countV (setA s.handles dst bNew) bNew + countV s.vals bNew : Nat) : Int)
          have h2 := countV_setA hhn hd bNew bNew
          rw [if_neg heq, if_pos rfl] at h2
          omega
        · have hx := hcnt p hp2
          have h2 := countV_setA hhn hd bNew p.1
          rw [if_neg (by omega : ¬bOld = p.1), if_neg (by omega : ¬bNew = p.1)] at h2
          omega
      · intro p hp
        rcases mem_mapAt hp with ⟨x, hxmem, rfl⟩ | ⟨hp2, hne⟩
        · show (lookupA (eraseA (incBlocks s.blocks bNew) bOld) bNew).isSome = true
          rw [lookupA_eraseA, if_neg (by omega : ¬bNew = bOld)]
          exact lookupA_mapAt_isSome _ _ hbNewsome
        · have hpne : p.2 ≠ bOld := by
            intro he
            have hpmem : (p.1, bOld) ∈ eraseA s.handles dst := by
              rw [← he]
              exact mem_eraseA.2 ⟨hp2, hne⟩
            have := countV_pos_of_mem hpmem
            have h2 := countV_eraseA hhn hd bOld
            rw [if_pos rfl] at h2
            omega
          rw [lookupA_eraseA, if_neg hpne]
          exact lookupA_mapAt_isSome _ _ (hhok p hp2)
      · intro p hp
        have hpne : p.2 ≠ bOld := by
          intro he
          have hmem : (p.1, bOld) ∈ s.vals := by
            rw [← he]
            exact hp
          have := countV_pos_of_mem hmem
          omega
        rw [lookupA_eraseA, if_neg hpne]
        exact lookupA_mapAt_isSome _ _ (hvok p hp)
      · intro p hp
        obtain ⟨hp1, hpne⟩ := mem_eraseA.1 hp
        rcases mem_mapAt hp1 with ⟨x, hxmem, rfl⟩ | ⟨hp2, _⟩
        · show bNew < s.next
          exact hbb (bNew, x) hxmem
        · exact hbb p hp2
      · intro p hp
        rcases mem_mapAt hp with ⟨x, hxmem, rfl⟩ | ⟨hp2, hne⟩
        · show dst < s.next
          exact hhb (dst, x) hxmem
        · exact hhb p hp2
      · exact hvb
      · exact keys_nodup_eraseA hkeys1
      · rw [setA, keys_mapAt]
        exact hhn
      · exact hvn
      · exact hsn
    · rw [if_neg h1]
      refine ⟨?_, ?_, ?_, ?_, ?_, ?_, ?_, ?_, ?_, ?_⟩ <;> dsimp only
      · intro p hp
        rcases mem_mapAt hp with ⟨y, hymem, rfl⟩ | ⟨hp1, hne1⟩
        · have hly := lookupA_of_mem_nodup hkeys1 hymem
          rw [hl1Old] at hly
          cases Option.some.inj hly
          show blOld.count - 1 =
            ((countV (setA s.handles dst bNew) bOld + countV s.vals bOld : Nat) : Int)
          have h2 := countV_setA hhn hd bNew bOld
          rw [if_pos rfl, if_neg (by omega : ¬bNew = bOld)] at h2
          omega
        · rcases mem_mapAt hp1 with ⟨x, hxmem, rfl⟩ | ⟨hp2, hne2⟩
          · have hx : x.count = ((countV s.handles bNew + countV s.vals bNew : Nat) : Int) :=
              hcnt (bNew, x) hxmem
            show x.count + 1 =
              ((countV (setA s.handles dst bNew) bNew + countV s.vals bNew : Nat) : Int)
            have h2 := countV_setA hhn hd bNew bNew
            rw [if_neg heq, if_pos rfl] at h2
            omega
          · have hx := hcnt p hp2
            have h2 := countV_setA hhn hd bNew p.1
            rw [if_neg (by omega : ¬bOld = p.1), if_neg (by omega : ¬bNew = p.1)] at h2
            omega
      · intro p hp
        rcases mem_mapAt hp with ⟨x, hxmem, rfl⟩ | ⟨hp2, hne⟩
        · exact lookupA_mapAt_isSome _ _ (lookupA_mapAt_isSome _ _ hbNewsome)
        · exact lookupA_mapAt_isSome _ _ (lookupA_mapAt_isSome _ _ (hhok p hp2))
      · intro p hp
        exact lookupA_mapAt_isSome _ _ (lookupA_mapAt_isSome _ _ (hvok p hp))
      · intro p hp
        rcases mem_mapAt hp with ⟨y, hymem, rfl⟩ | ⟨hp1, hne1⟩
        · show bOld < s.next
          rcases mem_mapAt hymem with ⟨x, hxmem, heq2⟩ | ⟨hp3, _⟩
          · exact absurd (congrArg Prod.fst heq2) (by dsimp only; omega)
          · exact hbb _ hp3
        · rcases mem_mapAt hp1 with ⟨x, hxmem, rfl⟩ | ⟨hp3, _⟩
          · show bNew < s.next
            exact hbb (bNew, x) hxmem
          · exact hbb p hp3
      · intro p hp
        rcases mem_mapAt hp with ⟨x, hxmem, rfl⟩ | ⟨hp2, hne⟩
        · show dst < s.next
          exact hhb (dst, x) hxmem
        · exact hhb p hp2
      · exact hvb
      · rw [keys_mapAt, incBlocks, keys_mapAt]
        exact hbn
      · rw [setA, keys_mapAt]
        exact hhn
      · exact hvn
      · exact hsn

theorem wf_sys0 : wf sys0 := by
  refine ⟨?_, ?_, ?_, ?_, ?_, ?_, ?_, ?_, ?_, ?_⟩ <;> simp [sys0, keys]

theorem step_wf {s s2 : Sys} {o : Op} (hwf : wf s) (hstep : step s o = some s2) :
    wf s2 := by
  cases o with
  | newVal =>
    simp only [step] at hstep
    obtain rfl := Option.some.inj hstep
    exact wf_newContainer hwf
  | copyVal v =>
    simp only [step] at hstep
    split at hstep
    · exact absurd hstep (by simp)
    · obtain rfl := Option.some.inj hstep
      exact wf_newContainer hwf
  | destroyVal v =>
    simp only [step] at hstep
    split at hstep
    · exact absurd hstep (by simp)
    · next b heqv =>
      split at hstep
      · exact absurd hstep (by simp)
      · next bl heqb =>
        split at hstep
        · next h1 =>
          obtain rfl := Option.some.inj hstep
          exact wf_destroyVal hwf heqv heqb h1
        · exact absurd hstep (by simp)
  | newPtrFromVal v =>
    simp only [step] at hstep
    split at hstep
    · exact absurd hstep (by simp)
    · next b heqv =>
      obtain rfl := Option.some.inj hstep
      exact wf_addHandle hwf (hwf.2.2.1 (v, b) (lookupA_mem heqv))
  | copyPtr h =>
    simp only [step] at hstep
    split at hstep
    · exact absurd hstep (by simp)
    · next b heqh =>
      obtain rfl := Option.some.inj hstep
      exact wf_addHandle hwf (hwf.2.1 (h, b) (lookupA_mem heqh))
  | assignPtr dst src =>
    simp only [step] at hstep
    split at hstep
    · next bOld bNew heqd heqs =>
      obtain rfl := Option.some.inj hstep
      exact wf_assign hwf heqd heqs
    · exact absurd hstep (by simp)
  | destroyPtr h =>
    simp only [step] at hstep
    split at hstep
    · exact absurd hstep (by simp)
    · next b heqh =>
      obtain rfl := Option.some.inj hstep
      exact wf_decHandle hwf heqh
  | cloneVal v =>
    simp only [step] at hstep
    split at hstep
    · exact absurd hstep (by simp)
    · obtain rfl := Option.some.inj hstep
      exact wf_orphanBlock hwf

theorem run_wf : ∀ (ops : List Op) {s s2 : Sys}, wf s → run s ops = some s2 → wf s2 := by
  intro ops
  induction ops with
  | nil =>
    intro s s2 hwf h
    rw [run] at h
    obtain rfl := Option.some.inj h
    exact hwf
  | cons o rest ih =>
    intro s s2 hwf h
    rw [run] at h
    split at h
    · exact absurd h (by simp)
    · next s1 heq =>
      exact ih (step_wf hwf heq) h

/-- Orphan block: allocated with counter 0 and referenced by no handle and
no value container. The block allocated by val::clone is in this state. -/
@[reducible]
def orphan (s : Sys) (b : Nat) : Prop :=
  lookupA s.blocks b = some ⟨0, 1⟩ ∧ countV s.handles b = 0 ∧
    countV s.vals b = 0 ∧ b < s.next

theorem lookupA_decBlocks_ne {l : List (Nat × block)} {k b : Nat} (hne : b ≠ k) :
    lookupA (decBlocks l k) b = lookupA l b := by
  unfold decBlocks
  split
  · rfl
  · split
    · rw [lookupA_eraseA, if_neg hne]
    · rw [lookupA_mapAt, if_neg hne]

theorem orphan_step {s s2 : Sys} {b : Nat} {o : Op} (ho : orphan s b)
    (hstep : step s o = some s2) : orphan s2 b := by
  obtain ⟨hbl, hch, hcv, hlt⟩ := ho
  have hchm := countV_eq_zero.1 hch
  have hcvm := countV_eq_zero.1 hcv
  cases o with
  | newVal =>
    simp only [step] at hstep
    obtain rfl := Option.some.inj hstep
    refine ⟨?_, hch, ?_, by dsimp only; omega⟩
    · show lookupA ((s.next, (⟨1, 1⟩ : block)) :: s.blocks) b = some ⟨0, 1⟩
      rw [lookupA_cons, if_neg (by omega : ¬s.next = b)]
      exact hbl
    · show countV ((s.next, s.next) :: s.vals) b = 0
      rw [countV_cons_kv, if_neg (by omega : ¬s.next = b), hcv]
  | copyVal v =>
    simp only [step] at hstep
    split at hstep
    · exact absurd hstep (by simp)
    · obtain rfl := Option.some.inj hstep
      refine ⟨?_, hch, ?_, by dsimp only; omega⟩
      · show lookupA ((s.next, (⟨1, 1⟩ : block)) :: s.blocks) b = some ⟨0, 1⟩
        rw [lookupA_cons, if_neg (by omega : ¬s.next = b)]
        exact hbl
      · show countV ((s.next, s.next) :: s.vals) b = 0
        rw [countV_cons_kv, if_neg (by omega : ¬s.next = b), hcv]
  | destroyVal v =>
    simp only [step] at hstep
    split at hstep
    · exact absurd hstep (by simp)
    · next bv heqv =>
      split at hstep
      · exact absurd hstep (by simp)
      · next bl heqb =>
        split at hstep
        · obtain rfl := Option.some.inj hstep
          have hne : bv ≠ b := fun he => hcvm (v, bv) (lookupA_mem heqv) he
          refine ⟨?_, hch, ?_, hlt⟩
          · show lookupA (eraseA s.blocks bv) b = some ⟨0, 1⟩
            rw [lookupA_eraseA, if_neg (by omega : ¬b = bv)]
            exact hbl
          · exact countV_eq_zero.2 (fun p hp => hcvm p (mem_eraseA.1 hp).1)
        · exact absurd hstep (by simp)
  | newPtrFromVal v =>
    simp only [step] at hstep
    split at hstep
    · exact absurd hstep (by simp)
    · next bv heqv =>
      obtain rfl := Option.some.inj hstep
      have hne : bv ≠ b := fun he => hcvm (v, bv) (lookupA_mem heqv) he
      refine ⟨?_, ?_, hcv, by dsimp only; omega⟩
      · show lookupA (incBlocks s.blocks bv) b = some ⟨0, 1⟩
        rw [incBlocks, lookupA_mapAt, if_neg (by omega : ¬b = bv)]
        exact hbl
      · show countV ((s.next, bv) :: s.handles) b = 0
        rw [countV_cons_kv, if_neg (by omega : ¬bv = b), hch]
  | copyPtr h =>
    simp only [step] at hstep
    split at hstep
    · exact absurd hstep (by simp)
    · next bh heqh =>
      obtain rfl := Option.some.inj hstep
      have hne : bh ≠ b := fun he => hchm (h, bh) (lookupA_mem heqh) he
      refine ⟨?_, ?_, hcv, by dsimp only; omega⟩
      · show lookupA (incBlocks s.blocks bh) b = some ⟨0, 1⟩
        rw [incBlocks, lookupA_mapAt, if_neg (by omega : ¬b = bh)]
        exact hbl
      · show countV ((s.next, bh) :: s.handles) b = 0
        rw [countV_cons_kv, if_neg (by omega : ¬bh = b), hch]
  | assignPtr dst src =>
    simp only [step] at hstep
    split at hstep
    · next bOld bNew heqd heqs =>
      obtain rfl := Option.some.inj hstep
      have hneO : bOld ≠ b := fun he => hchm (dst, bOld) (lookupA_mem heqd) he
      have hneN : bNew ≠ b := fun he => hchm (src, bNew) (lookupA_mem heqs) he
      refine ⟨?_, ?_, hcv, hlt⟩
      · show lookupA (decBlocks (incBlocks s.blocks bNew) bOld) b = some ⟨0, 1⟩
        rw [lookupA_decBlocks_ne (by omega : b ≠ bOld), incBlocks, lookupA_mapAt,
          if_neg (by omega : ¬b = bNew)]
        exact hbl
      · refine countV_eq_zero.2 (fun p hp => ?_)
        rcases mem_mapAt hp with ⟨x, hxmem, rfl⟩ | ⟨hp2, _⟩
        · exact hneN
        · exact hchm p hp2
    · exact absurd hstep (by simp)
  | destroyPtr h =>
    simp only [step] at hstep
    split at hstep
    · exact absurd hstep (by simp)
    · next bh heqh =>
      obtain rfl := Option.some.inj hstep
      have hne : bh ≠ b := fun he => hchm (h, bh) (lookupA_mem heqh) he
      refine ⟨?_, ?_, hcv, hlt⟩
      · show lookupA (decBlocks s.blocks bh) b = some ⟨0, 1⟩
        rw [lookupA_decBlocks_ne (by omega : b ≠ bh)]
        exact hbl
      · exact countV_eq_zero.2 (fun p hp => hchm p (mem_eraseA.1 hp).1)
  | cloneVal v =>
    simp only [step] at hstep
    split at hstep
    · exact absurd hstep (by simp)
    · obtain rfl := Option.some.inj hstep
      refine ⟨?_, hch, hcv, by dsimp only; omega⟩
      · show lookupA ((s.next, (⟨0, 1⟩ : block)) :: s.blocks) b = some ⟨0, 1⟩
        rw [lookupA_cons, if_neg (by omega : ¬s.next = b)]
        exact hbl

theorem orphan_run : ∀ (ops : List Op) {s s2 : Sys} {b : Nat}, orphan s b →
    run s ops = some s2 → orphan s2 b := by
  intro ops
  induction ops with
  | nil =>
    intro s s2 b ho h
    rw [run] at h
    obtain rfl := Option.some.inj h
    exact ho
  | cons o rest ih =>
    intro s s2 b ho h
    rw [run] at h
    split at h
    · exact absurd h (by simp)
    · next s1 heq =>
      exact ih (orphan_step ho heq) h

/-! ## Claims -/

/-- Claim C1, counterexample to the claim as stated. The claim asserts
that the runtime capability check is performed on both narrowing paths and
that a mismatched narrowing always fails. On the handle-to-handle path
(explicit ptr<T>::ptr(ptr<U> const &), val.hpp lines 277-283) the source
performs dynamic_cast<U*>, discards the result and never branches on it:
narrowing a Shape handle (offset 4 over a Circle, dynamic type 1) to
Square (type 2) succeeds and produces the handle ⟨100, 12⟩ although
type 1 does not support type 2, so the claim is false. -/
theorem claim1_counterexample :
    Lex.disp 1 2 = none ∧
      narrowFromPtr Lex 2 0 ⟨100, 4⟩ = .ok ⟨100, 12⟩ :=
  ⟨rfl, rfl⟩

/-- Claim C1, amended: only the narrowing conversion from a value
container (ptr<T>::ptr(val<U> const &), val.hpp lines 266-275) performs
the runtime capability check, succeeding exactly when the dynamic type of
the erased value supports the target type and failing observably
otherwise; the handle-to-handle narrowing path (lines 277-283) performs no
effective check and always produces a handle, with the same offset
arithmetic, even when the dynamic type does not support the target. -/
theorem claim1_narrowing_check_amended (L : Layout) (t u d : Nat) (p : PtrM) :
    (narrowFromVal L t u d p = .error .badCast ↔ L.disp d t = none) ∧
    narrowFromPtr L t u p =
      .ok { p with upcast_offset := subW p.upcast_offset (compute_upcast_offset L t u) } ∧
    (L.disp d t ≠ none → narrowFromVal L t u d p =
      .ok { p with upcast_offset := subW p.upcast_offset (compute_upcast_offset L t u) }) := by
  refine ⟨?_, rfl, ?_⟩
  · unfold narrowFromVal
    cases hd2 : L.disp d t <;> simp [hd2]
  · intro hne
    unfold narrowFromVal
    cases hd2 : L.disp d t
    · exact absurd hd2 hne
    · simp

/-- Witness for claim C1 at a concrete input: over a Circle (dynamic type
1), narrowing a Shape handle from the container to Circle passes the check
and yields a handle; the iff instance is also produced concretely. -/
theorem claim1_witness :
    (narrowFromVal Lex 1 0 1 ⟨100, 4⟩ = .error .badCast ↔ Lex.disp 1 1 = none) ∧
    narrowFromVal Lex 1 0 1 ⟨100, 4⟩ = .ok ⟨100, 8⟩ :=
  ⟨(claim1_narrowing_check_amended Lex 1 0 1 ⟨100, 4⟩).1,
   (claim1_narrowing_check_amended Lex 1 0 1 ⟨100, 4⟩).2.2 (by decide)⟩

/-- Claim C2: the destructor of val first detaches the data pointer (the
returned block state is nulled), aborts exactly when the counter differs
from 1 — which, in a well-formed state, happens exactly when an external
observer handle still shares the block — and otherwise dispatches the
in-place destruction when the buffer is the inline small storage and the
heap deletion otherwise. -/
theorem claim2_destructor_behavior (s : Sys) (v b small : Nat) (bl : block)
    (hwf : wf s) (hv : lookupA s.vals v = some b) (hb : lookupA s.blocks b = some bl) :
    (val_dtor bl small).1.data = 0 ∧
    ((val_dtor bl small).2 = DtorAction.abort (bl.count - 1) ↔ 0 < countV s.handles b) ∧
    (countV s.handles b = 0 → bl.data = small →
      (val_dtor bl small).2 = DtorAction.destructInPlace) ∧
    (countV s.handles b = 0 → bl.data ≠ small →
      (val_dtor bl small).2 = DtorAction.heapDelete bl.data) := by
  obtain ⟨hcnt, hhok, hvok, hbb, hhb, hvb, hbn, hhn, hvn, hsn⟩ := hwf
  have hcntb : bl.count = ((countV s.handles b + countV s.vals b : Nat) : Int) :=
    hcnt (b, bl) (lookupA_mem hb)
  have hone : countV s.vals b = 1 := countV_eq_one hsn (lookupA_mem hv)
  refine ⟨?_, ?_, ?_, ?_⟩
  · unfold val_dtor
    split_ifs <;> rfl
  · by_cases hc : bl.count = 1
    · have hch0 : countV s.handles b = 0 := by omega
      unfold val_dtor
      rw [if_neg (show ¬bl.count ≠ 1 by omega)]
      constructor
      · intro h2
        split_ifs at h2
      · intro h2
        omega
    · have hpos : 0 < countV s.handles b := by omega
      unfold val_dtor
      rw [if_pos (show bl.count ≠ 1 from hc)]
      exact iff_of_true rfl hpos
  · intro h0 hbuf
    unfold val_dtor
    rw [if_neg (show ¬bl.count ≠ 1 by omega), if_pos hbuf]
  · intro h0 hbuf
    unfold val_dtor
    rw [if_neg (show ¬bl.count ≠ 1 by omega), if_neg hbuf]

/-- Witness for claim C2 at the concrete reachable state with one value
container and one external handle: the destructor aborts. -/
theorem claim2_witness :
    (val_dtor ⟨2, 1⟩ 5).1.data = 0 ∧
    ((val_dtor ⟨2, 1⟩ 5).2 = DtorAction.abort ((⟨2, 1⟩ : block).count - 1) ↔
      0 < countV [(1, 0)] 0) ∧
    (countV [(1, 0)] 0 = 0 → (⟨2, 1⟩ : block).data = 5 →
      (val_dtor ⟨2, 1⟩ 5).2 = DtorAction.destructInPlace) ∧
    (countV [(1, 0)] 0 = 0 → (⟨2, 1⟩ : block).data ≠ 5 →
      (val_dtor ⟨2, 1⟩ 5).2 = DtorAction.heapDelete (⟨2, 1⟩ : block).data) :=
  claim2_destructor_behavior ⟨[(0, ⟨2, 1⟩)], [(1, 0)], [(0, 0)], 2⟩ 0 0 5 ⟨2, 1⟩
    (by decide) rfl rfl

/-- Claim C3: copying a value container clones the erased value to a fresh
heap address wrapped in a fresh block, never sharing with the source; the
copy initially holds an equal value, and mutating through the copy never
changes the value observed through the original. -/
theorem claim3_copy_independence (st : VStore) (v : ValV) (x : Nat)
    (hb : v.blockId < st.nextBlock) (ha : v.dataAddr < st.nextAddr)
    (hx : lookupA st.store v.dataAddr = some x) :
    (val_copy st v).2.blockId ≠ v.blockId ∧
    (val_copy st v).2.dataAddr ≠ v.dataAddr ∧
    read (val_copy st v).1 (val_copy st v).2 = some x ∧
    read (val_copy st v).1 v = some x ∧
    (∀ y, read (mutate (val_copy st v).1 (val_copy st v).2 y) v = some x ∧
      read (mutate (val_copy st v).1 (val_copy st v).2 y) (val_copy st v).2 = some y) := by
  refine ⟨?_, ?_, ?_, ?_, ?_⟩
  · show st.nextBlock ≠ v.blockId
    omega
  · show st.nextAddr ≠ v.dataAddr
    omega
  · show lookupA ((st.nextAddr, (lookupA st.store v.dataAddr).getD 0) :: st.store)
      st.nextAddr = some x
    rw [lookupA_cons, if_pos rfl, hx]
    rfl
  · show lookupA ((st.nextAddr, (lookupA st.store v.dataAddr).getD 0) :: st.store)
      v.dataAddr = some x
    rw [lookupA_cons, if_neg (by omega : ¬st.nextAddr = v.dataAddr)]
    exact hx
  · intro y
    constructor
    · show lookupA (setA ((st.nextAddr, (lookupA st.store v.dataAddr).getD 0) :: st.store)
        st.nextAddr y) v.dataAddr = some x
      rw [setA, lookupA_mapAt, if_neg (by omega : ¬v.dataAddr = st.nextAddr),
        lookupA_cons, if_neg (by omega : ¬st.nextAddr = v.dataAddr)]
      exact hx
    · show lookupA (setA ((st.nextAddr, (lookupA st.store v.dataAddr).getD 0) :: st.store)
        st.nextAddr y) st.nextAddr = some y
      rw [setA, lookupA_mapAt, if_pos rfl, lookupA_cons, if_pos rfl]
      rfl

/-- Witness for claim C3 with a store holding value 42 at address 0. -/
theorem claim3_witness :
    (val_copy ⟨[(0, 42)], 1, 1⟩ ⟨0, 0⟩).2.blockId ≠ (⟨0, 0⟩ : ValV).blockId ∧
    (val_copy ⟨[(0, 42)], 1, 1⟩ ⟨0, 0⟩).2.dataAddr ≠ (⟨0, 0⟩ : ValV).dataAddr ∧
    read (val_copy ⟨[(0, 42)], 1, 1⟩ ⟨0, 0⟩).1 (val_copy ⟨[(0, 42)], 1, 1⟩ ⟨0, 0⟩).2 =
      some 42 ∧
    read (val_copy ⟨[(0, 42)], 1, 1⟩ ⟨0, 0⟩).1 ⟨0, 0⟩ = some 42 ∧
    (∀ y, read (mutate (val_copy ⟨[(0, 42)], 1, 1⟩ ⟨0, 0⟩).1
        (val_copy ⟨[(0, 42)], 1, 1⟩ ⟨0, 0⟩).2 y) ⟨0, 0⟩ = some 42 ∧
      read (mutate (val_copy ⟨[(0, 42)], 1, 1⟩ ⟨0, 0⟩).1
        (val_copy ⟨[(0, 42)], 1, 1⟩ ⟨0, 0⟩).2 y) (val_copy ⟨[(0, 42)], 1, 1⟩ ⟨0, 0⟩).2 =
        some y) :=
  claim3_copy_independence ⟨[(0, 42)], 1, 1⟩ ⟨0, 0⟩ 42 (by decide) (by decide) rfl

/-- Claim C4: the widening conversion always succeeds with no runtime
check, recomputes the offset by adding the static base displacement of t
within u, and dereferencing the converted handle yields the address of the
t sub-object of the same stored object that the original handle viewed as
its u sub-object. -/
theorem claim4_widening_same_subobject (L : Layout) (t u d a δ0 δ : Nat) (p : PtrM)
    (hdu : L.disp d u = some δ0) (hut : L.disp u t = some δ)
    (hdata : p.data = a) (hoff : p.upcast_offset = δ0 % W) :
    L.disp d t = some (δ0 + δ) ∧
    widen L t u p = ⟨a, (δ0 + δ) % W⟩ ∧
    deref p = subAddr L d u a ∧
    deref (widen L t u p) = subAddr L d t a := by
  have hdt := L.disp_trans d u t δ0 δ hdu hut
  have hcomp : compute_upcast_offset L t u = δ % W := by
    simp [compute_upcast_offset, hut]
  refine ⟨hdt, ?_, ?_, ?_⟩
  · show (⟨p.data, (p.upcast_offset + compute_upcast_offset L t u) % W⟩ : PtrM) =
      ⟨a, (δ0 + δ) % W⟩
    rw [hcomp, hdata, hoff, ← Nat.add_mod]
  · show (p.data + p.upcast_offset) % W = (a + (L.disp d u).getD 0) % W
    rw [hdata, hoff, hdu]
    exact Nat.add_mod_mod a δ0 W
  · show (p.data + (p.upcast_offset + compute_upcast_offset L t u) % W) % W =
      (a + (L.disp d t).getD 0) % W
    rw [hcomp, hdata, hoff, hdt, ← Nat.add_mod]
    exact Nat.add_mod_mod a (δ0 + δ) W

/-- Witness for claim C4: widening a Circle handle over a Circle at
address 100 to a Shape handle lands on the Shape sub-object at offset 4. -/
theorem claim4_witness :
    Lex.disp 1 0 = some (0 + 4) ∧
    widen Lex 0 1 ⟨100, 0⟩ = ⟨100, (0 + 4) % W⟩ ∧
    deref ⟨100, 0⟩ = subAddr Lex 1 1 100 ∧
    deref (widen Lex 0 1 ⟨100, 0⟩) = subAddr Lex 1 0 100 :=
  claim4_widening_same_subobject Lex 0 1 1 100 0 4 ⟨100, 0⟩ rfl rfl rfl rfl

/-- Claim C5: in every state reachable by the machine from the empty
state, the counter of the block backing any live value container equals
the number of live external observer handles sharing that block plus one,
and is in particular never negative. -/
theorem claim5_counter_invariant (ops : List Op) (s : Sys) (v b : Nat)
    (hrun : run sys0 ops = some s) (hv : lookupA s.vals v = some b) :
    ∃ bl, lookupA s.blocks b = some bl ∧
      bl.count = ((countV s.handles b : Nat) : Int) + 1 ∧ 0 ≤ bl.count := by
  have hwf := run_wf ops wf_sys0 hrun
  obtain ⟨hcnt, hhok, hvok, _, _, _, _, _, _, hsn⟩ := hwf
  obtain ⟨bl, hbl⟩ := lookupA_isSome_ex (hvok (v, b) (lookupA_mem hv))
  have h1 : bl.count = ((countV s.handles b + countV s.vals b : Nat) : Int) :=
    hcnt (b, bl) (lookupA_mem hbl)
  have h2 : countV s.vals b = 1 := countV_eq_one hsn (lookupA_mem hv)
  exact ⟨bl, hbl, by omega, by omega⟩

/-- Witness for claim C5 after creating one container and deriving one
handle from it: the counter is 2 = 1 + 1. -/
theorem claim5_witness :
    ∃ bl, lookupA [(0, (⟨2, 1⟩ : block))] 0 = some bl ∧
      bl.count = ((countV [(1, 0)] 0 : Nat) : Int) + 1 ∧ 0 ≤ bl.count :=
  claim5_counter_invariant [Op.newVal, Op.newPtrFromVal 0]
    ⟨[(0, ⟨2, 1⟩)], [(1, 0)], [(0, 0)], 2⟩ 0 0 rfl rfl

/-- Claim C6: constructing a block with a null data address fails with an
invalid-argument error; every successfully constructed block holds the
given non-null address, with the counter starting at 0. -/
theorem claim6_block_null_check (d : Nat) :
    (d = 0 → blockNew d = .error .invalidArgument) ∧
    (d ≠ 0 → ∃ b, blockNew d = .ok b ∧ b.data = d ∧ b.data ≠ 0 ∧ b.count = 0) := by
  constructor
  · intro h
    simp [blockNew, h]
  · intro h
    refine ⟨⟨0, d⟩, ?_, rfl, h, rfl⟩
    simp [blockNew, h]

/-- Witness for claim C6 at the null address and at address 5. -/
theorem claim6_witness :
    blockNew 0 = .error .invalidArgument ∧
    ∃ b, blockNew 5 = .ok b ∧ b.data = 5 ∧ b.data ≠ 0 ∧ b.count = 0 :=
  ⟨(claim6_block_null_check 0).1 rfl, (claim6_block_null_check 5).2 (by decide)⟩

/-- Claim C7: for a concrete type that is not copy constructible the
dispatcher fails the CLONE operation with a logic error — in particular
val::clone propagates that error — while constructing a value container
through the ownership-taking path signals no error for such a type. -/
theorem claim7_clone_logic_error (ti : TypeOps) (placement fresh vaddr : Nat)
    (hc : ti.copy_constructible = false) :
    op ti .CLONE placement fresh = .error .logicError ∧
    (vaddr ≠ 0 → ∃ m, val_from_owned ti vaddr = .ok m ∧ m.ops = ti) ∧
    (∀ m : ValM, m.ops = ti → val_clone m fresh = .error .logicError) := by
  refine ⟨?_, ?_, ?_⟩
  · simp [op, hc]
  · intro hv
    refine ⟨⟨⟨1, vaddr⟩, 0, ti⟩, ?_, rfl⟩
    simp [val_from_owned, blockNew, hv]
  · intro m hm
    simp [val_clone, op, hm, hc]

/-- Witness for claim C7 with a non-copyable type model. -/
theorem claim7_witness :
    op ⟨false, 4, 7⟩ .CLONE 0 9 = .error .logicError ∧
    (∃ m, val_from_owned ⟨false, 4, 7⟩ 5 = .ok m ∧ m.ops = ⟨false, 4, 7⟩) ∧
    val_clone ⟨⟨1, 5⟩, 0, ⟨false, 4, 7⟩⟩ 9 = .error .logicError := by
  have h := claim7_clone_logic_error ⟨false, 4, 7⟩ 0 9 5 rfl
  exact ⟨h.1, h.2.1 (by decide), h.2.2 ⟨⟨1, 5⟩, 0, ⟨false, 4, 7⟩⟩ rfl⟩

/-- Claim C8: the storage-selection function emplacement_ptr is
short-circuited by the early return and yields null for every small
storage size and data size, so construction always takes the heap branch
and the inline buffer is never selected; the transcribed dead code would
have selected the buffer for a fitting size. -/
theorem claim8_small_storage_bypassed (S a n heapFresh : Nat) :
    emplacement_ptr S a n = none ∧
    construct S a n heapFresh = .onHeap heapFresh ∧
    (n ≤ S → emplacement_tail S a n = some a) := by
  refine ⟨rfl, rfl, fun h => ?_⟩
  simp [emplacement_tail, h]

/-- Witness for claim C8 at a size (3) that fits the small storage (16):
the selection still returns none and the heap is used. -/
theorem claim8_witness :
    emplacement_ptr 16 7 3 = none ∧
    construct 16 7 3 9 = StorageChoice.onHeap 9 ∧
    emplacement_tail 16 7 3 = some 7 :=
  ⟨(claim8_small_storage_bypassed 16 7 3 9).1,
   (claim8_small_storage_bypassed 16 7 3 9).2.1,
   (claim8_small_storage_bypassed 16 7 3 9).2.2 (by decide)⟩

/-- Claim C9: the assignment to an observer handle increments the counter
of the new block before decrementing the old one: starting from any
well-formed state, for a handle assignment within one block the
intermediate state after the increment carries count + 1, the decrement
then takes the non-freeing branch, and the final count equals the
original, the block never being freed and the counter never touching 0. -/
theorem claim9_assignment_order (s : Sys) (dst src b : Nat) (hwf : wf s)
    (hd : lookupA s.handles dst = some b) (hs2 : lookupA s.handles src = some b) :
    ∃ bl, lookupA s.blocks b = some bl ∧ 1 ≤ bl.count ∧
      lookupA (incBlocks s.blocks b) b = some { bl with count := bl.count + 1 } ∧
      decBlocks (incBlocks s.blocks b) b =
        mapAt (incBlocks s.blocks b) b (fun x => { x with count := x.count - 1 }) ∧
      lookupA (decBlocks (incBlocks s.blocks b) b) b = some bl ∧
      step s (Op.assignPtr dst src) =
        some ⟨decBlocks (incBlocks s.blocks b) b, setA s.handles dst b, s.vals, s.next⟩ := by
  obtain ⟨hcnt, hhok, hvok, _, _, _, _, _, _, _⟩ := hwf
  have hdmem : (dst, b) ∈ s.handles := lookupA_mem hd
  obtain ⟨bl, hbl⟩ := lookupA_isSome_ex (hhok (dst, b) hdmem)
  have hcntb : bl.count = ((countV s.handles b + countV s.vals b : Nat) : Int) :=
    hcnt (b, bl) (lookupA_mem hbl)
  have hch : 1 ≤ countV s.handles b := countV_pos_of_mem hdmem
  have hpos : 1 ≤ bl.count := by omega
  have hl1 : lookupA (incBlocks s.blocks b) b = some { bl with count := bl.count + 1 } := by
    rw [incBlocks, lookupA_mapAt, if_pos rfl, hbl]
    rfl
  have hdec : decBlocks (incBlocks s.blocks b) b =
      mapAt (incBlocks s.blocks b) b (fun x => { x with count := x.count - 1 }) := by
    simp only [decBlocks, hl1]
    rw [if_neg (show ¬({ bl with count := bl.count + 1 } : block).count = 1 from by
      show ¬bl.count + 1 = 1
      omega)]
  have hfin : lookupA (decBlocks (incBlocks s.blocks b) b) b = some bl := by
    rw [hdec, lookupA_mapAt, if_pos rfl, hl1]
    show some ⟨bl.count + 1 - 1, bl.data⟩ = some bl
    have h3 : bl.count + 1 - 1 = bl.count := by omega
    rw [h3]
  refine ⟨bl, hbl, hpos, hl1, hdec, hfin, ?_⟩
  simp only [step, hd, hs2]

/-- Witness for claim C9: self-assignment of the only handle of a
container, at counter 2. -/
theorem claim9_witness :
    ∃ bl, lookupA [(0, (⟨2, 1⟩ : block))] 0 = some bl ∧ 1 ≤ bl.count ∧
      lookupA (incBlocks [(0, ⟨2, 1⟩)] 0) 0 = some { bl with count := bl.count + 1 } ∧
      decBlocks (incBlocks [(0, ⟨2, 1⟩)] 0) 0 =
        mapAt (incBlocks [(0, ⟨2, 1⟩)] 0) 0 (fun x => { x with count := x.count - 1 }) ∧
      lookupA (decBlocks (incBlocks [(0, ⟨2, 1⟩)] 0) 0) 0 = some bl ∧
      step ⟨[(0, ⟨2, 1⟩)], [(1, 0)], [(0, 0)], 2⟩ (Op.assignPtr 1 1) =
        some ⟨decBlocks (incBlocks [(0, ⟨2, 1⟩)] 0) 0, setA [(1, 0)] 1 0, [(0, 0)], 2⟩ :=
  claim9_assignment_order ⟨[(0, ⟨2, 1⟩)], [(1, 0)], [(0, 0)], 2⟩ 1 1 0
    (by decide) rfl rfl

/-- Claim C10: val::clone allocates a block with ownership count 0 around
the cloned value; that block is referenced by no handle and no container,
and after any subsequent sequence of operations it is still allocated with
count 0 — it is never decremented nor deleted, a permanent leak. -/
theorem claim10_clone_leaks_block (s : Sys) (v b : Nat) (hwf : wf s)
    (hv : lookupA s.vals v = some b) :
    ∃ s1, step s (Op.cloneVal v) = some s1 ∧ orphan s1 s.next ∧
      ∀ ops s2, run s1 ops = some s2 → orphan s2 s.next := by
  obtain ⟨hcnt, hhok, hvok, hbb, hhb, hvb, _, _, _, _⟩ := hwf
  have ho : orphan ⟨(s.next, ⟨0, 1⟩) :: s.blocks, s.handles, s.vals, s.next + 1⟩ s.next := by
    refine ⟨?_, ?_, ?_, ?_⟩
    · show lookupA ((s.next, (⟨0, 1⟩ : block)) :: s.blocks) s.next = some ⟨0, 1⟩
      rw [lookupA_cons, if_pos rfl]
    · exact countV_fresh hhok hbb
    · exact countV_fresh hvok hbb
    · show s.next < s.next + 1
      omega
  refine ⟨⟨(s.next, ⟨0, 1⟩) :: s.blocks, s.handles, s.vals, s.next + 1⟩, ?_, ho, ?_⟩
  · simp only [step, hv]
  · intro ops s2 hrun2
    exact orphan_run ops ho hrun2

/-- Witness for claim C10 in the concrete reachable state with one
container and one handle. -/
theorem claim10_witness :
    ∃ s1, step ⟨[(0, ⟨2, 1⟩)], [(1, 0)], [(0, 0)], 2⟩ (Op.cloneVal 0) = some s1 ∧
      orphan s1 2 ∧ ∀ ops s2, run s1 ops = some s2 → orphan s2 2 :=
  claim10_clone_leaks_block ⟨[(0, ⟨2, 1⟩)], [(1, 0)], [(0, 0)], 2⟩ 0 0 (by decide) rfl

end ValHpp
